import Mathlib

/-!
Shallow embedding of the diff-chunking / embedding / vector-search core of
the `tix` CLI (package `internal/services`), together with theorems checking
the natural-language specification of that core against the code.

Go strings are modelled as lists of characters (`GoStr`); `len` on a Go
string is its UTF-8 byte length, modelled by `goLen`.  Machine `int` values
that can be negative in the modelled code (`topK`) are `Int`; loop counters
that stay non-negative are `Nat`.  A Go runtime panic (out-of-range slice
index) is modelled by `Option.none` / a dedicated constructor.
-/

/-- A Go string, as the list of its characters (runes). -/
abbrev GoStr := List Char

/-- UTF-8 byte length of a Go string: Go's `len(s)`. -/
def goLen (s : GoStr) : Nat := (s.map Char.utf8Size).sum

/-- Go's `unicode.IsSpace`: `'\t' '\n' '\v' '\f' '\r' ' '`, `U+0085`, `U+00A0`
plus the Unicode `White_Space` code points outside Latin-1. -/
def goIsSpace (c : Char) : Bool :=
  c.val = 9 || c.val = 10 || c.val = 11 || c.val = 12 || c.val = 13 || c.val = 32 ||
  c.val = 133 || c.val = 160 || c.val = 5760 ||
  (8192 ≤ c.val && c.val ≤ 8202) ||
  c.val = 8232 || c.val = 8233 || c.val = 8239 || c.val = 8287 || c.val = 12288

/-- Go's `strings.HasPrefix p s` (argument order: pattern first). -/
def startsWith : GoStr → GoStr → Bool
  | [], _ => true
  | _ :: _, [] => false
  | p :: ps, c :: cs => p = c && startsWith ps cs

/-- Go's `strings.TrimPrefix`: drop `p` from the front of `s` when it is
there, otherwise return `s` unchanged. -/
def dropStart (p s : GoStr) : GoStr :=
  if startsWith p s then s.drop p.length else s

/-- Go's `strings.TrimSpace`: remove leading and trailing white space. -/
def goTrimSpace (s : GoStr) : GoStr :=
  ((s.dropWhile goIsSpace).reverse.dropWhile goIsSpace).reverse

/-- Go's `strings.Split(s, "\n")`: the (always non-empty) list of segments
of `s` between newline characters. -/
def splitLines : GoStr → List GoStr
  | [] => [[]]
  | c :: rest =>
    if c = '\n' then [] :: splitLines rest
    else
      match splitLines rest with
      | [] => [[c]]
      | l :: ls => (c :: l) :: ls

/-- Go's `strings.Join(parts, sep)`. -/
def goJoin (sep : GoStr) : List GoStr → GoStr
  | [] => []
  | [s] => s
  | s :: rest => s ++ sep ++ goJoin sep rest

/-- Concatenation of a list of lists (`bytes.Join` with empty separator /
repeated `WriteString`). -/
def concatAll {α : Type} : List (List α) → List α
  | [] => []
  | s :: ss => s ++ concatAll ss

/-- The characters of the literal `"diff --git"`. -/
def dgStr : GoStr := ['d', 'i', 'f', 'f', ' ', '-', '-', 'g', 'i', 't']

/-- The characters of the literal `"+++"`. -/
def ppStr : GoStr := ['+', '+', '+']

/-- The characters of the literal `"+++ b/"`. -/
def ppbStr : GoStr := ['+', '+', '+', ' ', 'b', '/']

/-- `Chunk` from `internal/services` (rag.go): a segment of a diff with
metadata. -/
structure Chunk where
  Content : GoStr
  Index : Nat
  FilePath : GoStr
  Lines : Nat
deriving DecidableEq

/-- `maxLinesPerChunk` constant of `ChunkDiff`. -/
def maxLinesPerChunk : Nat := 800

/-- `minLinesPerChunk` constant of `ChunkDiff`. -/
def minLinesPerChunk : Nat := 100

/-- The file-path tracking of one loop iteration of `ChunkDiff`: a line
starting with `"+++ b/"` replaces the current path by the line with that
marker removed (the outer test also accepts `"diff --git"` and `"+++"`
headers, whose inner test then fails, leaving the path unchanged). -/
def updateFilePath (line path : GoStr) : GoStr :=
  if startsWith dgStr line || startsWith ppStr line then
    if startsWith ppbStr line then dropStart ppbStr line else path
  else path

/-- The file-boundary half of `shouldCreateChunk`: the lookahead
`i < len(lines)-1 && strings.HasPrefix(lines[i+1], "diff --git") &&
currentLines >= minLinesPerChunk`, phrased on the tail of the remaining
line list (`rest` is nonempty exactly when `i < len(lines)-1`). -/
def boundaryNext (rest : List GoStr) (curLines' : Nat) : Bool :=
  match rest with
  | next :: _ => startsWith dgStr next && decide (curLines' ≥ minLinesPerChunk)
  | [] => false

/-- The Go local `shouldCreateChunk`: the buffer reached the maximum size,
or the next line opens a new file while the buffer holds the minimum. -/
def shouldCreateChunk (rest : List GoStr) (curLines' : Nat) : Bool :=
  decide (curLines' ≥ maxLinesPerChunk) || boundaryNext rest curLines'

/-- The line loop of `ChunkDiff`.  Arguments mirror the Go locals:
remaining `lines`, `currentChunk` builder contents, `currentFilePath`,
`currentLines`, `chunkIndex`, and the `chunks` accumulator. -/
def chunkLoop : List GoStr → GoStr → GoStr → Nat → Nat → List Chunk → List Chunk
  | [], cur, path, curLines, idx, acc =>
    if cur.length > 0 then
      if goTrimSpace cur = [] then acc
      else acc ++ [⟨cur, idx, path, curLines⟩]
    else acc
  | line :: rest, cur, path, curLines, idx, acc =>
    let path' := updateFilePath line path
    let cur' := cur ++ line ++ ['\n']
    let curLines' := curLines + 1
    if shouldCreateChunk rest curLines' then
      if goTrimSpace cur' = [] then chunkLoop rest [] path' 0 idx acc
      else chunkLoop rest [] path' 0 (idx + 1) (acc ++ [⟨cur', idx, path', curLines'⟩])
    else chunkLoop rest cur' path' curLines' idx acc

/-- `ChunkDiff` from `internal/services`: split a diff into chunks. -/
def ChunkDiff (diff : GoStr) : List Chunk :=
  chunkLoop (splitLines diff) [] [] 0 0 []

/-- Segment-level view of the `ChunkDiff` loop: the groups of consecutive
lines out of which the loop builds its chunk candidates (before the
whitespace-only filter), with the same boundary conditions as `chunkLoop`.
Used to state which part of the input each chunk covers. -/
def segLoop : List GoStr → List GoStr → List (List GoStr)
  | [], cur => if cur.isEmpty then [] else [cur]
  | line :: rest, cur =>
    let cur' := cur ++ [line]
    if shouldCreateChunk rest cur'.length then
      cur' :: segLoop rest []
    else segLoop rest cur'

/-- The line groups `ChunkDiff` forms on a given diff. -/
def segmentsOf (diff : GoStr) : List (List GoStr) :=
  segLoop (splitLines diff) []

/-- The chunk content a group of lines is rendered to: every line followed
by a newline (`WriteString(line); WriteString("\n")`). -/
def renderSeg : List GoStr → GoStr
  | [] => []
  | l :: ls => l ++ ['\n'] ++ renderSeg ls

/-- `EmbeddingVector` from `internal/services`: a chunk paired with its
embedding.  The Go field is a pointer `*Chunk` into the chunk slice; since
nothing mutates chunks, it is modelled by the chunk value.  Embedding
components are modelled as exact rationals in place of IEEE `float32`. -/
structure EmbeddingVector where
  Chunk : Chunk
  Embedding : List ℚ
deriving DecidableEq

/-- `VectorStore` from `internal/services`. -/
structure VectorStore where
  Vectors : List EmbeddingVector
deriving DecidableEq

/-- `SearchResult` from `internal/services`.  The similarity score is a
`float64` in Go, modelled as an exact rational. -/
structure SearchResult where
  Vector : EmbeddingVector
  Similarity : ℚ
deriving DecidableEq

/-- The comparison `results[i].Similarity > results[j].Similarity` passed to
`sort.Slice`, as the ordering relation the sorted output satisfies: `a`
may precede `b` iff `b`'s similarity does not exceed `a`'s. -/
def simDescRel (a b : SearchResult) : Prop := b.Similarity ≤ a.Similarity

instance : DecidableRel simDescRel := fun _ _ => inferInstanceAs (Decidable (_ ≤ _))

instance : IsTotal SearchResult simDescRel := ⟨fun a b => le_total b.Similarity a.Similarity⟩

instance : IsTrans SearchResult simDescRel := ⟨fun _ _ _ h1 h2 => le_trans h2 h1⟩

/-- `VectorStore.Search` from `internal/services`.  The cosine-similarity
scores are `float64` values whose computation (`CosineSimilarity`) involves
`math.Sqrt`; since the searched store's behaviour is independent of the
score values, the scoring function `sim` is a parameter.  `sort.Slice` is
modelled by a sort satisfying its documented contract (output sorted with
respect to the `less` closure); stability is NOT part of that contract.
`results[:topK]` with negative `topK` is an out-of-range slice panic,
modelled by `none`. -/
def VectorStore.Search (sim : List ℚ → List ℚ → ℚ) (vs : VectorStore)
    (queryEmbedding : List ℚ) (topK : Int) : Option (List SearchResult) :=
  if vs.Vectors = [] then some []
  else
    let results := vs.Vectors.map fun v => ⟨v, sim queryEmbedding v.Embedding⟩
    let sorted := List.insertionSort simDescRel results
    let k : Int := if topK > (results.length : Int) then (results.length : Int) else topK
    if k < 0 then none else some (sorted.take k.toNat)

/-- The characters of the error literal `"no chunks to embed"`. -/
def noChunksMsg : GoStr :=
  ['n', 'o', ' ', 'c', 'h', 'u', 'n', 'k', 's', ' ', 't', 'o', ' ', 'e', 'm', 'b', 'e', 'd']

/-- The characters of the error literal `"failed to generate embeddings: "`. -/
def embedFailMsg : GoStr :=
  ['f', 'a', 'i', 'l', 'e', 'd', ' ', 't', 'o', ' ', 'g', 'e', 'n', 'e', 'r', 'a', 't', 'e',
   ' ', 'e', 'm', 'b', 'e', 'd', 'd', 'i', 'n', 'g', 's', ':', ' ']

/-- The embedding endpoint (`client.CreateEmbeddings` restricted to the
request's input strings and the response's `Data` embeddings): either an
error, or one embedding list per response datum. -/
abbrev EmbClient := List GoStr → Except GoStr (List (List ℚ))

/-- Outcome of `GenerateEmbeddings`: the Go `([]EmbeddingVector, error)`
pair, plus a constructor for a runtime panic (`batch[j]` out of range when
the response holds more data items than the batch has inputs). -/
inductive GoEmbOut where
  | panicked : GoEmbOut
  | failed : GoStr → GoEmbOut
  | ok : List EmbeddingVector → GoEmbOut
deriving DecidableEq

/-- `batchSize` constant of `GenerateEmbeddings`. -/
def batchSize : Nat := 50

/-- The successive slices `chunks[i:end]` taken by the batching loop
`for i := 0; i < len(chunks); i += batchSize`. -/
def goBatches : List Chunk → List (List Chunk)
  | [] => []
  | c :: rest => (c :: rest).take batchSize :: goBatches ((c :: rest).drop batchSize)
termination_by l => l.length
decreasing_by
  simp [batchSize, List.length_drop]
  omega

/-- The batch loop body of `GenerateEmbeddings`, over the precomputed batch
slices.  Returns the trace of embedding requests issued (the input-string
list of each call actually made) together with the Go outcome; the Go code
is the second component.  `resp.Data` longer than the batch makes
`batch[j]` panic; shorter `resp.Data` silently yields fewer vectors
(`for j, embeddingData := range resp.Data`). -/
def embLoop (client : EmbClient) : List (List Chunk) → List EmbeddingVector →
    List (List GoStr) × GoEmbOut
  | [], vectors => ([], .ok vectors)
  | batch :: restBatches, vectors =>
    let inputs := batch.map Chunk.Content
    match client inputs with
    | .error e => ([inputs], .failed (embedFailMsg ++ e))
    | .ok data =>
      if data.length > batch.length then ([inputs], .panicked)
      else
        let step := embLoop client restBatches
          (vectors ++ (data.zip batch).map fun p => ⟨p.2, p.1⟩)
        (inputs :: step.1, step.2)

/-- `GenerateEmbeddings` from `internal/services`, with the OpenAI client
abstracted to the embedding endpoint it calls. -/
def GenerateEmbeddings (client : EmbClient) (chunks : List Chunk) : GoEmbOut :=
  if chunks = [] then .failed noChunksMsg
  else (embLoop client (goBatches chunks) []).2

/-- The embedding requests `GenerateEmbeddings` issues, in order (first
component of the instrumented loop). -/
def embCallsMade (client : EmbClient) (chunks : List Chunk) : List (List GoStr) :=
  if chunks = [] then [] else (embLoop client (goBatches chunks) []).1

/-- `EstimateTokenCount` from `internal/services`: `len(text) / 4`. -/
def EstimateTokenCount (text : GoStr) : Nat := goLen text / 4

/-- `smallDiffThreshold` constant of the description generators. -/
def smallDiffThreshold : Nat := 50000

/-- The retrieval decision inlined in `GenerateMRDescriptionWithOptions`
and `GenerateIssueDescriptionWithOptions` (openai.go): a forced override is
returned verbatim; otherwise retrieval is used iff the estimated token
count of the diff reaches `smallDiffThreshold`. -/
def shouldUseRetrieval (diff : GoStr) (forceRAG : Option Bool) : Bool :=
  match forceRAG with
  | some b => b
  | none => decide (EstimateTokenCount diff ≥ smallDiffThreshold)

/-- The characters of the literal `"## "`. -/
def hh2 : GoStr := ['#', '#', ' ']

/-- The title-extraction step of `generateIssueDescriptionDirect` and
`generateIssueDescriptionWithRAG` (openai.go): if the completion result
starts with `"## "`, the title is the first line with the marker removed
and trimmed, and the body is the remaining lines rejoined and trimmed;
otherwise the title is empty and the body is the result unchanged. -/
def extractTitle (description : GoStr) : GoStr × GoStr :=
  if startsWith hh2 description then
    let lines := splitLines description
    (goTrimSpace (dropStart hh2 (lines.headD [])),
     goTrimSpace (goJoin ['\n'] (lines.drop 1)))
  else ([], description)

/-! ### Basic facts about the string operations -/

theorem splitLines_ne_nil (s : GoStr) : splitLines s ≠ [] := by
  match s with
  | [] => simp [splitLines]
  | c :: rest =>
    by_cases h : c = '\n'
    · simp [splitLines, h]
    · simp only [splitLines, if_neg h]
      cases splitLines rest <;> simp

theorem splitLines_cons_nl (rest : GoStr) : splitLines ('\n' :: rest) = [] :: splitLines rest := by
  simp [splitLines]

theorem splitLines_cons {c : Char} (h : c ≠ '\n') (rest : GoStr) :
    splitLines (c :: rest) =
      (c :: (splitLines rest).headD []) :: (splitLines rest).tail := by
  simp only [splitLines, if_neg h]
  cases hs : splitLines rest with
  | nil => exact absurd hs (splitLines_ne_nil rest)
  | cons l0 ls => simp

theorem newline_not_mem_splitLines (s : GoStr) : ∀ l ∈ splitLines s, '\n' ∉ l := by
  induction s with
  | nil => simp [splitLines]
  | cons c rest ih =>
    intro l hl
    by_cases h : c = '\n'
    · subst h
      rw [splitLines_cons_nl] at hl
      rcases List.mem_cons.mp hl with rfl | hl'
      · simp
      · exact ih l hl'
    · rw [splitLines_cons h] at hl
      cases hs : splitLines rest with
      | nil => exact absurd hs (splitLines_ne_nil rest)
      | cons l0 ls =>
        rw [hs] at hl
        rcases List.mem_cons.mp hl with rfl | hl'
        · intro hmem
          rcases List.mem_cons.mp hmem with hcl | hl0
          · exact h hcl.symm
          · exact ih l0 (hs ▸ List.mem_cons_self _ _) hl0
        · exact ih l (hs ▸ List.mem_cons_of_mem _ (by simpa using hl'))

theorem renderSeg_append (g h : List GoStr) :
    renderSeg (g ++ h) = renderSeg g ++ renderSeg h := by
  induction g with
  | nil => simp [renderSeg]
  | cons l ls ih => simp [renderSeg, ih]

theorem renderSeg_eq_nil {g : List GoStr} : renderSeg g = [] ↔ g = [] := by
  cases g with
  | nil => simp [renderSeg]
  | cons l ls => simp [renderSeg]

theorem renderSeg_splitLines (s : GoStr) : renderSeg (splitLines s) = s ++ ['\n'] := by
  induction s with
  | nil => simp [splitLines, renderSeg]
  | cons c rest ih =>
    by_cases h : c = '\n'
    · subst h
      rw [splitLines_cons_nl]
      simp [renderSeg, ih]
    · rw [splitLines_cons h]
      cases hs : splitLines rest with
      | nil => exact absurd hs (splitLines_ne_nil rest)
      | cons l0 ls =>
        rw [hs] at ih
        simp only [renderSeg] at ih ⊢
        simp [← ih]

theorem goTrimSpace_eq_nil {s : GoStr} :
    goTrimSpace s = [] ↔ ∀ c ∈ s, goIsSpace c = true := by
  unfold goTrimSpace
  rw [List.reverse_eq_nil_iff, List.dropWhile_eq_nil_iff]
  constructor
  · intro h c hc
    rcases List.mem_append.mp ((List.takeWhile_append_dropWhile goIsSpace s ▸ hc : c ∈ _)) with
      h1 | h2
    · exact List.mem_takeWhile_imp h1
    · exact h c (by simpa using List.mem_reverse.mpr h2)
  · intro h c hc
    exact h c (List.dropWhile_sublist _ |>.mem (by simpa using hc))

theorem exists_not_space_of_goTrimSpace_ne_nil {s : GoStr} (h : goTrimSpace s ≠ []) :
    ∃ c ∈ s, goIsSpace c = false := by
  by_contra hc
  push_neg at hc
  exact h (goTrimSpace_eq_nil.mpr fun c hcs => by
    have := hc c hcs
    revert this
    cases goIsSpace c <;> simp)

theorem goTrimSpace_ne_nil_of_mem {s : GoStr} {c : Char} (hc : c ∈ s)
    (hns : goIsSpace c = false) : goTrimSpace s ≠ [] := by
  intro h
  rw [goTrimSpace_eq_nil] at h
  rw [h c hc] at hns
  cases hns

theorem concatAll_append {α : Type} (xs ys : List (List α)) :
    concatAll (xs ++ ys) = concatAll xs ++ concatAll ys := by
  induction xs with
  | nil => simp [concatAll]
  | cons x xs ih => simp [concatAll, ih]

/-! ### Structure of the chunking loop -/

theorem chunkLoop_acc (lines : List GoStr) :
    ∀ cur path n idx acc, chunkLoop lines cur path n idx acc =
      acc ++ chunkLoop lines cur path n idx [] := by
  induction lines with
  | nil =>
    intro cur path n idx acc
    simp only [chunkLoop]
    split
    · split <;> simp
    · simp
  | cons line rest ih =>
    intro cur path n idx acc
    simp only [chunkLoop, List.nil_append]
    split
    · split
      · exact ih [] (updateFilePath line path) 0 idx acc
      · have h1 := ih [] (updateFilePath line path) 0 (idx + 1)
          (acc ++ [⟨cur ++ line ++ ['\n'], idx, updateFilePath line path, n + 1⟩])
        have h2 := ih [] (updateFilePath line path) 0 (idx + 1)
          [⟨cur ++ line ++ ['\n'], idx, updateFilePath line path, n + 1⟩]
        rw [h1, h2, List.append_assoc]
    · exact ih _ _ _ _ acc

theorem segLoop_concat (lines : List GoStr) :
    ∀ g, concatAll ((segLoop lines g).map renderSeg) = renderSeg g ++ renderSeg lines := by
  induction lines with
  | nil =>
    intro g
    by_cases hg : g = []
    · subst hg; simp [segLoop, renderSeg, concatAll]
    · simp [segLoop, List.isEmpty_iff, hg, concatAll, renderSeg]
  | cons line rest ih =>
    intro g
    simp only [segLoop]
    split
    · simp only [List.map_cons, concatAll, ih []]
      rw [renderSeg_append]
      simp [renderSeg]
    · rw [ih (g ++ [line]), renderSeg_append]
      simp [renderSeg]

theorem chunkLoop_contents (lines : List GoStr) :
    ∀ g path idx acc,
      (∀ gg ∈ segLoop lines g, goTrimSpace (renderSeg gg) ≠ []) →
      (chunkLoop lines (renderSeg g) path g.length idx acc).map Chunk.Content =
        acc.map Chunk.Content ++ (segLoop lines g).map renderSeg := by
  induction lines with
  | nil =>
    intro g path idx acc hkeep
    by_cases hg : g = []
    · subst hg
      simp [chunkLoop, segLoop, renderSeg]
    · have hne : renderSeg g ≠ [] := fun h => hg (renderSeg_eq_nil.mp h)
      have hlen : (renderSeg g).length > 0 := List.length_pos.mpr hne
      have htr : goTrimSpace (renderSeg g) ≠ [] :=
        hkeep g (by simp [segLoop, List.isEmpty_iff, hg])
      simp [chunkLoop, segLoop, List.isEmpty_iff, hg, hlen, htr]
  | cons line rest ih =>
    intro g path idx acc hkeep
    have hcur : renderSeg g ++ line ++ ['\n'] = renderSeg (g ++ [line]) := by
      rw [renderSeg_append]
      simp [renderSeg]
    have hlen : g.length + 1 = (g ++ [line]).length := by simp
    simp only [chunkLoop, hcur, hlen]
    simp only [segLoop] at hkeep ⊢
    by_cases hcond : shouldCreateChunk rest (g ++ [line]).length = true
    · rw [if_pos hcond] at hkeep ⊢
      rw [if_pos hcond]
      have hker : goTrimSpace (renderSeg (g ++ [line])) ≠ [] :=
        hkeep (g ++ [line]) (List.mem_cons_self _ _)
      rw [if_neg hker]
      have h2 := ih [] (updateFilePath line path) (idx + 1)
        (acc ++ [⟨renderSeg (g ++ [line]), idx, updateFilePath line path, (g ++ [line]).length⟩])
        (fun gg hgg => hkeep gg (List.mem_cons_of_mem _ hgg))
      simp only [renderSeg, List.length_nil] at h2
      rw [h2]
      simp
    · rw [if_neg hcond] at hkeep ⊢
      rw [if_neg hcond]
      exact ih (g ++ [line]) (updateFilePath line path) idx acc hkeep

theorem chunkLoop_index (lines : List GoStr) :
    ∀ cur path n idx,
      (chunkLoop lines cur path n idx []).map Chunk.Index =
        List.range' idx (chunkLoop lines cur path n idx []).length := by
  induction lines with
  | nil =>
    intro cur path n idx
    simp only [chunkLoop]
    split
    · split <;> simp
    · simp
  | cons line rest ih =>
    intro cur path n idx
    simp only [chunkLoop, List.nil_append]
    split
    · split
      · exact ih [] (updateFilePath line path) 0 idx
      · rw [chunkLoop_acc rest [] (updateFilePath line path) 0 (idx + 1)
          [⟨cur ++ line ++ ['\n'], idx, updateFilePath line path, n + 1⟩]]
        simp only [List.map_append, List.length_append, List.map_cons, List.map_nil,
          List.length_cons, List.length_nil]
        rw [ih [] (updateFilePath line path) 0 (idx + 1)]
        rw [Nat.add_comm 1, List.range'_succ]
        rfl
    · exact ih _ _ _ _

theorem mem_of_getLast?_eq {α : Type} {l : List α} {a : α} (h : l.getLast? = some a) :
    a ∈ l := by
  induction l with
  | nil => simp at h
  | cons x xs ih =>
    cases xs with
    | nil =>
      simp only [List.getLast?_singleton, Option.some.injEq] at h
      simp [h]
    | cons y ys =>
      rw [List.getLast?_cons_cons] at h
      exact List.mem_cons_of_mem _ (ih h)

theorem chunkLoop_wf (lines : List GoStr) :
    ∀ cur path n idx acc,
      (∀ l ∈ lines, '\n' ∉ l) →
      n = cur.count '\n' →
      (cur = [] ∨ cur.getLast? = some '\n') →
      (∀ c ∈ acc, c.Content.getLast? = some '\n' ∧ c.Lines = c.Content.count '\n' ∧
        1 ≤ c.Lines ∧ goTrimSpace c.Content ≠ []) →
      ∀ c ∈ chunkLoop lines cur path n idx acc,
        c.Content.getLast? = some '\n' ∧ c.Lines = c.Content.count '\n' ∧
        1 ≤ c.Lines ∧ goTrimSpace c.Content ≠ [] := by
  induction lines with
  | nil =>
    intro cur path n idx acc _ hcount hlast hacc c hc
    simp only [chunkLoop] at hc
    by_cases hlen : cur.length > 0
    · by_cases htr : goTrimSpace cur = []
      · rw [if_pos hlen, if_pos htr] at hc
        exact hacc c hc
      · rw [if_pos hlen, if_neg htr] at hc
        rcases List.mem_append.mp hc with h1 | h2
        · exact hacc c h1
        · have hceq : c = ⟨cur, idx, path, n⟩ := by simpa using h2
          subst hceq
          have hcur_ne : cur ≠ [] := by
            intro h
            rw [h] at hlen
            simp at hlen
          have hlast' : cur.getLast? = some '\n' := hlast.resolve_left hcur_ne
          have hmem : '\n' ∈ cur := mem_of_getLast?_eq hlast'
          have hcnt : 1 ≤ n := by
            rcases Nat.eq_zero_or_pos n with h0 | h1
            · rw [hcount] at h0
              exact absurd hmem (List.count_eq_zero.mp h0)
            · exact h1
          exact ⟨hlast', hcount, hcnt, htr⟩
    · rw [if_neg hlen] at hc
      exact hacc c hc
  | cons line rest ih =>
    intro cur path n idx acc hnl hcount hlast hacc c hc
    simp only [chunkLoop] at hc
    have hnl_line : '\n' ∉ line := hnl line (List.mem_cons_self _ _)
    have hnl_rest : ∀ l ∈ rest, '\n' ∉ l := fun l hl => hnl l (List.mem_cons_of_mem _ hl)
    have hcount' : n + 1 = (cur ++ line ++ ['\n']).count '\n' := by
      rw [List.append_assoc, List.count_append, List.count_append,
        List.count_eq_zero.mpr hnl_line, hcount]
      simp
    have hlast' : (cur ++ line ++ ['\n']).getLast? = some '\n' := by
      rw [List.append_assoc, ← List.append_assoc]
      exact List.getLast?_concat _
    by_cases hsc : shouldCreateChunk rest (n + 1) = true
    · rw [if_pos hsc] at hc
      by_cases htr : goTrimSpace (cur ++ line ++ ['\n']) = []
      · rw [if_pos htr] at hc
        exact ih [] _ 0 idx acc hnl_rest (by simp) (Or.inl rfl) hacc c hc
      · rw [if_neg htr] at hc
        refine ih [] _ 0 (idx + 1) _ hnl_rest (by simp) (Or.inl rfl) ?_ c hc
        intro c' hc'
        rcases List.mem_append.mp hc' with h1 | h2
        · exact hacc c' h1
        · have hceq : c' = ⟨cur ++ line ++ ['\n'], idx, updateFilePath line path, n + 1⟩ := by
            simpa using h2
          subst hceq
          exact ⟨hlast', hcount', Nat.succ_le_succ (Nat.zero_le _), htr⟩
    · rw [if_neg hsc] at hc
      exact ih _ _ _ _ _ hnl_rest hcount' (Or.inr hlast') hacc c hc

theorem chunkLoop_small (lines : List GoStr) :
    ∀ cur path n idx acc, n + lines.length ≤ minLinesPerChunk →
      chunkLoop lines cur path n idx acc =
        chunkLoop [] (cur ++ renderSeg lines)
          (lines.foldl (fun p l => updateFilePath l p) path) (n + lines.length) idx acc := by
  induction lines with
  | nil =>
    intro cur path n idx acc _
    simp [renderSeg]
  | cons line rest ih =>
    intro cur path n idx acc h
    simp only [List.length_cons, minLinesPerChunk] at h
    have hsc : shouldCreateChunk rest (n + 1) = false := by
      have hmax : decide (n + 1 ≥ maxLinesPerChunk) = false := by
        simp only [maxLinesPerChunk, ge_iff_le, decide_eq_false_iff_not, not_le]
        omega
      cases rest with
      | nil => simp [shouldCreateChunk, boundaryNext, hmax]
      | cons nx rs =>
        have hmin : decide (n + 1 ≥ minLinesPerChunk) = false := by
          simp only [minLinesPerChunk, ge_iff_le, decide_eq_false_iff_not, not_le]
          simp only [List.length_cons] at h
          omega
        simp [shouldCreateChunk, boundaryNext, hmax, hmin]
    simp only [chunkLoop, hsc, Bool.false_eq_true, if_false]
    rw [ih (cur ++ line ++ ['\n']) (updateFilePath line path) (n + 1) idx acc
      (by simp only [minLinesPerChunk]; omega)]
    have harg : cur ++ line ++ ['\n'] ++ renderSeg rest = cur ++ renderSeg (line :: rest) := by
      simp [renderSeg]
    have hnum : n + 1 + rest.length = n + (rest.length + 1) := by omega
    rw [harg, hnum]
    rfl

/-! ### Claim theorems: chunking -/

/-- C1, counterexample: the claim `concat(chunkDiff(D).map(content)) == D` fails
at `D = "a"`, where the concatenation is `"a\n"` (the loop appends a newline
after every line, including the last); it also fails at the whitespace-only
diff `D = " "`, which produces no chunks at all. -/
theorem C1_counterexample :
    concatAll ((ChunkDiff ['a']).map Chunk.Content) ≠ ['a'] ∧
    concatAll ((ChunkDiff ['a']).map Chunk.Content) = ['a', '\n'] ∧
    ChunkDiff [' '] = [] := by decide

/-- C1 (amended): for every diff string `D` none of whose chunk segments is
whitespace-only, concatenating the `Content` fields of `ChunkDiff D` in
`Index` order (the chunks are produced with indices `0, 1, 2, ...` in list
order) reproduces `D` with a single trailing newline appended — no lines
are dropped or reordered, but one `'\n'` is added after the final line
(and whitespace-only segments, when present, are dropped entirely). -/
theorem C1_chunk_reconstruction (D : GoStr)
    (hkeep : ∀ g ∈ segmentsOf D, goTrimSpace (renderSeg g) ≠ []) :
    concatAll ((ChunkDiff D).map Chunk.Content) = D ++ ['\n'] ∧
    (ChunkDiff D).map Chunk.Index = List.range (ChunkDiff D).length := by
  constructor
  · have h := chunkLoop_contents (splitLines D) [] [] 0 [] hkeep
    simp only [renderSeg, List.length_nil, List.map_nil, List.nil_append] at h
    rw [ChunkDiff, h, segLoop_concat]
    simp [renderSeg, renderSeg_splitLines]
  · rw [ChunkDiff, chunkLoop_index, List.range_eq_range']

/-- C1, witness: at the two-line diff `"a\nb"` no segment is whitespace-only,
and the chunk contents concatenate to `"a\nb\n"`. -/
theorem C1_witness :
    concatAll ((ChunkDiff ['a', '\n', 'b']).map Chunk.Content) = ['a', '\n', 'b'] ++ ['\n'] ∧
    (ChunkDiff ['a', '\n', 'b']).map Chunk.Index =
      List.range (ChunkDiff ['a', '\n', 'b']).length :=
  C1_chunk_reconstruction ['a', '\n', 'b'] (by decide)

/-- C6, counterexample: the whitespace-only diff `" "` is a nonempty one-line
diff (far below the minimum chunk threshold), yet `ChunkDiff` returns no
chunk at all: the single candidate chunk is dropped by the
`strings.TrimSpace(content) != ""` filter. -/
theorem C6_counterexample :
    ([' '] : GoStr) ≠ [] ∧ (splitLines [' ']).length = 1 ∧ ChunkDiff [' '] = [] := by
  decide

/-- C6 (amended): for every diff containing at least one non-whitespace
character whose total line count is at most the minimum chunk threshold
(100 lines), `ChunkDiff` returns exactly one chunk, whose `Content` is the
entire diff followed by a single newline (hence contains the entire diff). -/
theorem C6_small_diff (D : GoStr) (hws : ∃ c ∈ D, goIsSpace c = false)
    (hlen : (splitLines D).length ≤ minLinesPerChunk) :
    ∃ ch : Chunk, ChunkDiff D = [ch] ∧ ch.Content = D ++ ['\n'] ∧ ch.Index = 0 ∧
      ch.Lines = (splitLines D).length := by
  rw [ChunkDiff, chunkLoop_small (splitLines D) [] [] 0 0 [] (by simpa using hlen)]
  rw [List.nil_append, renderSeg_splitLines]
  have hlen2 : (D ++ ['\n']).length > 0 := by simp
  obtain ⟨c0, hc0, hns⟩ := hws
  have htr : goTrimSpace (D ++ ['\n']) ≠ [] :=
    goTrimSpace_ne_nil_of_mem (List.mem_append_left _ hc0) hns
  simp only [chunkLoop]
  rw [if_pos hlen2, if_neg htr]
  exact ⟨_, rfl, rfl, rfl, by simp⟩

/-- C6, witness: the one-line diff `"a"` yields exactly the single chunk
with content `"a\n"`. -/
theorem C6_witness :
    ∃ ch : Chunk, ChunkDiff ['a'] = [ch] ∧ ch.Content = ['a'] ++ ['\n'] ∧ ch.Index = 0 ∧
      ch.Lines = (splitLines ['a']).length :=
  C6_small_diff ['a'] (by decide) (by decide)

/-- C10: every chunk returned by `ChunkDiff`, for every input diff, has a
`Content` ending in a newline character, a `Lines` field equal to the
number of newline characters in its `Content` (hence at least 1), and at
least one non-whitespace character in its `Content`. -/
theorem C10_chunk_invariants (D : GoStr) :
    ∀ ch ∈ ChunkDiff D, ch.Content.getLast? = some '\n' ∧
      ch.Lines = ch.Content.count '\n' ∧ 1 ≤ ch.Lines ∧
      ∃ c ∈ ch.Content, goIsSpace c = false := by
  intro ch hch
  have h := chunkLoop_wf (splitLines D) [] [] 0 0 []
    (newline_not_mem_splitLines D) (by simp) (Or.inl rfl) (by simp) ch hch
  exact ⟨h.1, h.2.1, h.2.2.1, exists_not_space_of_goTrimSpace_ne_nil h.2.2.2⟩

/-- C10, witness: the single chunk of `ChunkDiff "a"`, namely
`⟨"a\n", 0, "", 1⟩`, satisfies all the invariants. -/
theorem C10_witness :
    (⟨['a', '\n'], 0, [], 1⟩ : Chunk).Content.getLast? = some '\n' ∧
    (⟨['a', '\n'], 0, [], 1⟩ : Chunk).Lines =
      (⟨['a', '\n'], 0, [], 1⟩ : Chunk).Content.count '\n' ∧
    1 ≤ (⟨['a', '\n'], 0, [], 1⟩ : Chunk).Lines ∧
    ∃ c ∈ (⟨['a', '\n'], 0, [], 1⟩ : Chunk).Content, goIsSpace c = false :=
  C10_chunk_invariants ['a'] ⟨['a', '\n'], 0, [], 1⟩ (by decide)

/-! ### Claim theorems: vector search -/

/-- C2, counterexample: `Search` with `topK = -1` on a store holding one
vector does not return an empty sequence — `results[:topK]` with a negative
bound is an out-of-range slice panic (modelled by `none`). -/
theorem C2_counterexample :
    VectorStore.Search (fun _ _ => (0 : ℚ)) ⟨[⟨⟨['a'], 0, [], 1⟩, []⟩]⟩ [] (-1) = none ∧
    VectorStore.Search (fun _ _ => (0 : ℚ)) ⟨[⟨⟨['a'], 0, [], 1⟩, []⟩]⟩ [] (-1) ≠ some [] := by
  decide

/-- C2 (amended): for every scoring function, `Search` with `topK = 0`
returns an empty result sequence, and `Search` on an empty store returns an
empty result sequence for every `topK` (negative included); but a negative
`topK` on a nonempty store is an out-of-range slice panic, not an empty
result. -/
theorem C2_search_empty :
    (∀ (sim : List ℚ → List ℚ → ℚ) (store : VectorStore) (q : List ℚ),
      store.Search sim q 0 = some []) ∧
    (∀ (sim : List ℚ → List ℚ → ℚ) (q : List ℚ) (k : Int),
      VectorStore.Search sim ⟨[]⟩ q k = some []) ∧
    (∀ (sim : List ℚ → List ℚ → ℚ) (store : VectorStore) (q : List ℚ) (k : Int),
      store.Vectors ≠ [] → k < 0 → store.Search sim q k = none) := by
  refine ⟨?_, ?_, ?_⟩
  · intro sim store q
    by_cases h : store.Vectors = []
    · simp [VectorStore.Search, h]
    · simp only [VectorStore.Search, if_neg h]
      have h1 : ¬((0 : Int) >
          ((store.Vectors.map fun v => (⟨v, sim q v.Embedding⟩ : SearchResult)).length : Int)) := by
        omega
      rw [if_neg h1]
      simp
  · intro sim q k
    simp [VectorStore.Search]
  · intro sim store q k hne hk
    simp only [VectorStore.Search, if_neg hne]
    have h1 : ¬(k >
        ((store.Vectors.map fun v => (⟨v, sim q v.Embedding⟩ : SearchResult)).length : Int)) := by
      omega
    rw [if_neg h1, if_pos hk]

/-- C2, witness: `topK = 0` on a one-vector store gives `some []`, the empty
store gives `some []` at `topK = -3`, and `topK = -2` on a one-vector store
panics. -/
theorem C2_witness :
    VectorStore.Search (fun _ _ => (0 : ℚ)) ⟨[⟨⟨['b'], 0, [], 1⟩, []⟩]⟩ [] 0 = some [] ∧
    VectorStore.Search (fun _ _ => (0 : ℚ)) ⟨[]⟩ [] (-3) = some [] ∧
    VectorStore.Search (fun _ _ => (0 : ℚ)) ⟨[⟨⟨['b'], 0, [], 1⟩, []⟩]⟩ [] (-2) = none :=
  ⟨C2_search_empty.1 _ ⟨[⟨⟨['b'], 0, [], 1⟩, []⟩]⟩ [],
   C2_search_empty.2.1 _ [] (-3),
   C2_search_empty.2.2 _ ⟨[⟨⟨['b'], 0, [], 1⟩, []⟩]⟩ [] (-2) (by decide) (by decide)⟩

/-- C4: for every scoring function, store of `n` vectors, query and
`topK ≥ 0`, `Search` returns exactly `min(topK, n)` results, sorted in
descending order of their `Similarity` field; in particular `topK`
exceeding the store size yields exactly `n` results and no error. -/
theorem C4_search_topk (sim : List ℚ → List ℚ → ℚ) (store : VectorStore) (q : List ℚ)
    (k : Int) (hk : 0 ≤ k) :
    ∃ rs, store.Search sim q k = some rs ∧
      rs.length = min k.toNat store.Vectors.length ∧
      rs.Pairwise (fun a b => b.Similarity ≤ a.Similarity) := by
  by_cases h : store.Vectors = []
  · exact ⟨[], by simp [VectorStore.Search, h], by simp [h], by simp⟩
  · simp only [VectorStore.Search, if_neg h]
    have hslen : (List.insertionSort simDescRel
        (store.Vectors.map fun v => (⟨v, sim q v.Embedding⟩ : SearchResult))).length =
        store.Vectors.length := by
      rw [List.length_insertionSort, List.length_map]
    have hpair : (List.insertionSort simDescRel
        (store.Vectors.map fun v => (⟨v, sim q v.Embedding⟩ : SearchResult))).Pairwise
        simDescRel :=
      List.sorted_insertionSort simDescRel _
    by_cases hbig : k >
        ((store.Vectors.map fun v => (⟨v, sim q v.Embedding⟩ : SearchResult)).length : Int)
    · rw [if_pos hbig]
      have h0 : ¬(((store.Vectors.map fun v =>
          (⟨v, sim q v.Embedding⟩ : SearchResult)).length : Int) < 0) := by omega
      rw [if_neg h0]
      refine ⟨_, rfl, ?_, List.Pairwise.sublist (List.take_sublist _ _) hpair⟩
      rw [List.length_take, hslen]
      have hcast : ((store.Vectors.map fun v =>
          (⟨v, sim q v.Embedding⟩ : SearchResult)).length : Int).toNat =
          store.Vectors.length := by
        simp
      rw [hcast]
      rw [List.length_map] at hbig
      omega
    · rw [if_neg hbig]
      have h0 : ¬(k < 0) := by omega
      rw [if_neg h0]
      refine ⟨_, rfl, ?_, List.Pairwise.sublist (List.take_sublist _ _) hpair⟩
      rw [List.length_take, hslen]

/-- C4, witness: a two-vector store searched with `topK = 5` yields exactly
`min(5, 2) = 2` results, sorted. -/
theorem C4_witness :
    ∃ rs, VectorStore.Search (fun _ _ => (0 : ℚ))
        ⟨[⟨⟨['a'], 0, [], 1⟩, []⟩, ⟨⟨['b'], 1, [], 1⟩, []⟩]⟩ [] 5 = some rs ∧
      rs.length = min (5 : Int).toNat
        (⟨[⟨⟨['a'], 0, [], 1⟩, []⟩, ⟨⟨['b'], 1, [], 1⟩, []⟩]⟩ : VectorStore).Vectors.length ∧
      rs.Pairwise (fun a b => b.Similarity ≤ a.Similarity) :=
  C4_search_topk (fun _ _ => (0 : ℚ))
    ⟨[⟨⟨['a'], 0, [], 1⟩, []⟩, ⟨⟨['b'], 1, [], 1⟩, []⟩]⟩ [] 5 (by decide)

/-! ### Claim theorems: retrieval decision and title extraction -/

/-- C3: the retrieval decision returns a forced override verbatim, otherwise
uses retrieval iff `len(diff)/4 ≥ 50000`; a 199,999-character diff does not
trigger retrieval and a 200,001-character diff does. -/
theorem C3_retrieval_decision :
    (∀ (diff : GoStr) (b : Bool), shouldUseRetrieval diff (some b) = b) ∧
    (∀ diff : GoStr, shouldUseRetrieval diff none = decide (goLen diff / 4 ≥ 50000)) ∧
    shouldUseRetrieval (List.replicate 199999 'a') none = false ∧
    shouldUseRetrieval (List.replicate 200001 'a') none = true := by
  have hrep : ∀ n : Nat, goLen (List.replicate n 'a') = n := by
    intro n
    simp only [goLen, List.map_replicate, List.sum_replicate, smul_eq_mul]
    rw [show Char.utf8Size 'a' = 1 from rfl, Nat.mul_one]
  have hnone : ∀ diff : GoStr, shouldUseRetrieval diff none =
      decide (goLen diff / 4 ≥ 50000) := fun _ => rfl
  refine ⟨fun _ _ => rfl, hnone, ?_, ?_⟩
  · rw [hnone (List.replicate 199999 'a'), hrep 199999]
    decide
  · rw [hnone (List.replicate 200001 'a'), hrep 200001]
    decide

theorem splitLines_headD_of_no_nl : ∀ (p s : GoStr), '\n' ∉ p → startsWith p s = true →
    startsWith p ((splitLines s).headD []) = true := by
  intro p
  induction p with
  | nil => intro s _ _; simp [startsWith]
  | cons c cs ih =>
    intro s hnl h
    cases s with
    | nil => simp [startsWith] at h
    | cons d ds =>
      simp only [startsWith, Bool.and_eq_true, decide_eq_true_eq] at h
      obtain ⟨rfl, hrest⟩ := h
      have hd : c ≠ '\n' := fun hcn => hnl (hcn ▸ List.mem_cons_self _ _)
      rw [splitLines_cons hd]
      simp only [List.headD_cons, startsWith, Bool.and_eq_true, decide_eq_true_eq]
      exact ⟨by trivial, ih ds (fun hm => hnl (List.mem_cons_of_mem _ hm)) hrest⟩

/-- C9: if the completion result starts with `"## "`, the returned title is
the first line with that marker removed (whitespace-trimmed) and the body is
the remaining lines rejoined (whitespace-trimmed) — in particular
`"## My Title\n\nBody text"` yields title `"My Title"` and body
`"Body text"`; a result with no leading `"## "` yields an empty title and
the body unchanged. -/
theorem C9_title_extraction :
    extractTitle ['#', '#', ' ', 'M', 'y', ' ', 'T', 'i', 't', 'l', 'e', '\n', '\n',
        'B', 'o', 'd', 'y', ' ', 't', 'e', 'x', 't'] =
      (['M', 'y', ' ', 'T', 'i', 't', 'l', 'e'], ['B', 'o', 'd', 'y', ' ', 't', 'e', 'x', 't']) ∧
    (∀ s : GoStr, startsWith hh2 s = false → extractTitle s = ([], s)) ∧
    (∀ s : GoStr, startsWith hh2 s = true →
      (extractTitle s).1 = goTrimSpace (((splitLines s).headD []).drop 3) ∧
      (extractTitle s).2 = goTrimSpace (goJoin ['\n'] ((splitLines s).drop 1))) := by
  refine ⟨by decide, ?_, ?_⟩
  · intro s h
    simp [extractTitle, h]
  · intro s h
    have hhead := splitLines_headD_of_no_nl hh2 s (by decide) h
    constructor
    · simp only [extractTitle, if_pos h]
      simp only [dropStart, if_pos hhead]
      rfl
    · simp [extractTitle, h]

/-- C9, witness: the theorem evaluated at a result without the marker
(`"ab"`) and at one with it (`"## T\nx"`, title `"T"`, body `"x"`). -/
theorem C9_witness :
    extractTitle ['a', 'b'] = ([], ['a', 'b']) ∧
    (extractTitle ['#', '#', ' ', 'T', '\n', 'x']).1 =
      goTrimSpace (((splitLines ['#', '#', ' ', 'T', '\n', 'x']).headD []).drop 3) ∧
    (extractTitle ['#', '#', ' ', 'T', '\n', 'x']).2 =
      goTrimSpace (goJoin ['\n'] ((splitLines ['#', '#', ' ', 'T', '\n', 'x']).drop 1)) :=
  ⟨C9_title_extraction.2.1 ['a', 'b'] (by decide),
   (C9_title_extraction.2.2 ['#', '#', ' ', 'T', '\n', 'x'] (by decide)).1,
   (C9_title_extraction.2.2 ['#', '#', ' ', 'T', '\n', 'x'] (by decide)).2⟩

/-! ### Structure of the embedding batch loop -/

theorem concatAll_goBatches : ∀ l : List Chunk, concatAll (goBatches l) = l := by
  have key : ∀ (n : Nat) (l : List Chunk), l.length ≤ n → concatAll (goBatches l) = l := by
    intro n
    induction n with
    | zero =>
      intro l hl
      have : l = [] := List.length_eq_zero.mp (Nat.le_zero.mp hl)
      subst this
      simp [goBatches, concatAll]
    | succ n ih =>
      intro l hl
      cases l with
      | nil => simp [goBatches, concatAll]
      | cons c rest =>
        rw [goBatches, concatAll]
        rw [ih ((c :: rest).drop batchSize)
          (by simp only [List.length_drop, List.length_cons, batchSize] at hl ⊢; omega)]
        exact List.take_append_drop _ _
  exact fun l => key l.length l le_rfl

theorem goBatches_mem : ∀ (l : List Chunk), ∀ b ∈ goBatches l,
    b.length ≤ batchSize ∧ b ≠ [] := by
  have key : ∀ (n : Nat) (l : List Chunk), l.length ≤ n → ∀ b ∈ goBatches l,
      b.length ≤ batchSize ∧ b ≠ [] := by
    intro n
    induction n with
    | zero =>
      intro l hl b hb
      have : l = [] := List.length_eq_zero.mp (Nat.le_zero.mp hl)
      subst this
      simp [goBatches] at hb
    | succ n ih =>
      intro l hl b hb
      cases l with
      | nil => simp [goBatches] at hb
      | cons c rest =>
        rw [goBatches] at hb
        rcases List.mem_cons.mp hb with rfl | hb'
        · constructor
          · exact le_trans (List.length_take_le _ _) le_rfl
          · simp [batchSize]
        · exact ih ((c :: rest).drop batchSize)
            (by simp only [List.length_drop, List.length_cons, batchSize] at hl ⊢; omega) b hb'
  exact fun l => key l.length l le_rfl

theorem embLoop_all_ok (client : EmbClient)
    (H : ∀ inputs : List GoStr, inputs ≠ [] →
      ∃ l, client inputs = Except.ok l ∧ l.length = inputs.length) :
    ∀ (batches : List (List Chunk)), (∀ b ∈ batches, b ≠ []) → ∀ vectors,
      ∃ tail, embLoop client batches vectors =
        (batches.map (fun b => b.map Chunk.Content), GoEmbOut.ok (vectors ++ tail)) ∧
        tail.map EmbeddingVector.Chunk = concatAll batches := by
  intro batches
  induction batches with
  | nil =>
    intro _ vectors
    exact ⟨[], by simp [embLoop], by simp [concatAll]⟩
  | cons batch rest ih =>
    intro hne vectors
    have hbne : batch ≠ [] := hne batch (List.mem_cons_self _ _)
    have hine : batch.map Chunk.Content ≠ [] := by simpa using hbne
    obtain ⟨data, hdata, hlen⟩ := H (batch.map Chunk.Content) hine
    have hlen' : data.length = batch.length := by rw [hlen, List.length_map]
    obtain ⟨tail, htail, hchunks⟩ := ih (fun b hb => hne b (List.mem_cons_of_mem _ hb))
      (vectors ++ (data.zip batch).map fun p => ⟨p.2, p.1⟩)
    refine ⟨(data.zip batch).map (fun p => ⟨p.2, p.1⟩) ++ tail, ?_, ?_⟩
    · simp only [embLoop, hdata]
      rw [if_neg (by omega : ¬ data.length > batch.length)]
      rw [htail]
      simp [List.append_assoc]
    · rw [List.map_append, hchunks, concatAll]
      congr 1
      rw [List.map_map]
      exact List.map_snd_zip data batch (le_of_eq hlen'.symm)

theorem embLoop_ok_inv (client : EmbClient) :
    ∀ (batches : List (List Chunk)) (vectors vs : List EmbeddingVector),
      (embLoop client batches vectors).2 = GoEmbOut.ok vs →
      ∀ b ∈ batches, ∃ l, client (b.map Chunk.Content) = Except.ok l := by
  intro batches
  induction batches with
  | nil =>
    intro _ _ _ b hb
    exact absurd hb (List.not_mem_nil b)
  | cons batch rest ih =>
    intro vectors vs hok b hb
    cases hcl : client (batch.map Chunk.Content) with
    | error e =>
      simp only [embLoop, hcl] at hok
      simp at hok
    | ok data =>
      simp only [embLoop, hcl] at hok
      by_cases hgt : data.length > batch.length
      · rw [if_pos hgt] at hok
        simp at hok
      · rw [if_neg hgt] at hok
        rcases List.mem_cons.mp hb with rfl | hb'
        · exact ⟨data, hcl⟩
        · exact ih _ vs hok b hb'

theorem embLoop_err (client : EmbClient) :
    ∀ (batches : List (List Chunk)) (vectors : List EmbeddingVector),
      (∀ b ∈ batches, ∀ l, client (b.map Chunk.Content) = Except.ok l →
        l.length ≤ b.length) →
      (∃ b ∈ batches, ∃ e, client (b.map Chunk.Content) = Except.error e) →
      ∃ msg, (embLoop client batches vectors).2 = GoEmbOut.failed msg := by
  intro batches
  induction batches with
  | nil =>
    intro _ _ hex
    obtain ⟨b, hb, _⟩ := hex
    exact absurd hb (List.not_mem_nil b)
  | cons batch rest ih =>
    intro vectors hle hex
    cases hcl : client (batch.map Chunk.Content) with
    | error e =>
      refine ⟨embedFailMsg ++ e, ?_⟩
      simp only [embLoop, hcl]
    | ok data =>
      have hlen := hle batch (List.mem_cons_self _ _) data hcl
      have hex' : ∃ b ∈ rest, ∃ e, client (b.map Chunk.Content) = Except.error e := by
        obtain ⟨b, hb, e, he⟩ := hex
        rcases List.mem_cons.mp hb with rfl | hb'
        · rw [hcl] at he
          cases he
        · exact ⟨b, hb', e, he⟩
      obtain ⟨msg, hmsg⟩ := ih _ (fun b hb => hle b (List.mem_cons_of_mem _ hb)) hex'
      refine ⟨msg, ?_⟩
      simp only [embLoop, hcl]
      rw [if_neg (by omega : ¬ data.length > batch.length)]
      exact hmsg

/-! ### Claim theorems: embedding generation -/

/-- C7: `GenerateEmbeddings` fails on an empty chunk sequence; it returns
vectors only when every batch call succeeded; and whenever some batch call
errors (the others returning well-formed responses), the whole call fails —
by construction of the outcome type a failure carries no vectors, so
partial results from earlier successful batches are discarded. -/
theorem C7_embed_errors :
    (∀ client : EmbClient, GenerateEmbeddings client [] = GoEmbOut.failed noChunksMsg) ∧
    (∀ (client : EmbClient) (chunks : List Chunk) (vs : List EmbeddingVector),
      GenerateEmbeddings client chunks = GoEmbOut.ok vs →
      ∀ b ∈ goBatches chunks, ∃ l, client (b.map Chunk.Content) = Except.ok l) ∧
    (∀ (client : EmbClient) (chunks : List Chunk),
      (∀ b ∈ goBatches chunks, ∀ l, client (b.map Chunk.Content) = Except.ok l →
        l.length ≤ b.length) →
      (∃ b ∈ goBatches chunks, ∃ e, client (b.map Chunk.Content) = Except.error e) →
      ∃ msg, GenerateEmbeddings client chunks = GoEmbOut.failed msg) := by
  refine ⟨fun client => by simp [GenerateEmbeddings], ?_, ?_⟩
  · intro client chunks vs hok b hb
    by_cases h : chunks = []
    · subst h
      simp [goBatches] at hb
    · simp only [GenerateEmbeddings, if_neg h] at hok
      exact embLoop_ok_inv client _ [] vs hok b hb
  · intro client chunks hle hex
    have h : chunks ≠ [] := by
      intro h
      subst h
      obtain ⟨b, hb, _⟩ := hex
      simp [goBatches] at hb
    obtain ⟨msg, hmsg⟩ := embLoop_err client (goBatches chunks) [] hle hex
    refine ⟨msg, ?_⟩
    simp only [GenerateEmbeddings, if_neg h]
    exact hmsg

/-- C7, witness: the empty chunk list fails with the no-chunks error, and a
client that always errors makes the one-chunk call fail. -/
theorem C7_witness :
    GenerateEmbeddings (fun _ => Except.error ['x']) [] = GoEmbOut.failed noChunksMsg ∧
    ∃ msg, GenerateEmbeddings (fun _ => Except.error ['x']) [⟨['a'], 0, [], 1⟩] =
      GoEmbOut.failed msg :=
  ⟨C7_embed_errors.1 _,
   C7_embed_errors.2.2 _ [⟨['a'], 0, [], 1⟩]
     (fun b _ l hl => by simp at hl)
     ⟨[⟨['a'], 0, [], 1⟩], by simp [goBatches, batchSize], ['x'], rfl⟩⟩

/-- C8: for every nonempty chunk sequence, under the hypothesis that every
embedding request succeeds with exactly one embedding per input string,
`GenerateEmbeddings` returns one `EmbeddingVector` per input chunk in input
order, having issued one request per batch in batch order, where the
batches are consecutive groups of at most 50 chunks concatenating back to
the input. -/
theorem C8_embed_batches (client : EmbClient) (chunks : List Chunk) (hne : chunks ≠ [])
    (H : ∀ inputs : List GoStr, inputs ≠ [] →
      ∃ l, client inputs = Except.ok l ∧ l.length = inputs.length) :
    ∃ vs, GenerateEmbeddings client chunks = GoEmbOut.ok vs ∧
      vs.map EmbeddingVector.Chunk = chunks ∧
      vs.length = chunks.length ∧
      embCallsMade client chunks = (goBatches chunks).map (fun b => b.map Chunk.Content) ∧
      (∀ b ∈ goBatches chunks, b.length ≤ batchSize ∧ b ≠ []) ∧
      concatAll (goBatches chunks) = chunks := by
  obtain ⟨tail, hloop, hchunks⟩ := embLoop_all_ok client H (goBatches chunks)
    (fun b hb => (goBatches_mem chunks b hb).2) []
  simp only [List.nil_append] at hloop
  have hcc := concatAll_goBatches chunks
  rw [hcc] at hchunks
  refine ⟨tail, ?_, hchunks, ?_, ?_, goBatches_mem chunks, hcc⟩
  · simp only [GenerateEmbeddings, if_neg hne, hloop]
  · rw [← hchunks, List.length_map]
  · simp only [embCallsMade, if_neg hne, hloop]

/-- C8, witness: a client echoing one empty embedding per input string maps
the single chunk `⟨"a", 0, "", 1⟩` to a single vector, via one request. -/
theorem C8_witness :
    ∃ vs, GenerateEmbeddings (fun inputs => Except.ok (inputs.map fun _ => ([] : List ℚ)))
        [⟨['a'], 0, [], 1⟩] = GoEmbOut.ok vs ∧
      vs.map EmbeddingVector.Chunk = [⟨['a'], 0, [], 1⟩] ∧
      vs.length = ([⟨['a'], 0, [], 1⟩] : List Chunk).length ∧
      embCallsMade (fun inputs => Except.ok (inputs.map fun _ => ([] : List ℚ)))
          [⟨['a'], 0, [], 1⟩] =
        (goBatches [⟨['a'], 0, [], 1⟩]).map (fun b => b.map Chunk.Content) ∧
      (∀ b ∈ goBatches [⟨['a'], 0, [], 1⟩], b.length ≤ batchSize ∧ b ≠ []) ∧
      concatAll (goBatches [⟨['a'], 0, [], 1⟩]) = [⟨['a'], 0, [], 1⟩] :=
  C8_embed_batches (fun inputs => Except.ok (inputs.map fun _ => ([] : List ℚ)))
    [⟨['a'], 0, [], 1⟩] (by simp)
    (fun inputs _ => ⟨inputs.map fun _ => ([] : List ℚ), rfl, by simp⟩)
